import Mathlib

/-!
Shallow embedding of `src/main/main.py` (`class Graph`: `add_edge`,
`remove_vertex`, `add_vertex`, `create_adjacency_matrix`, `dijkstra`) and the
driver-level entry points the spec calls `new_graph`, `build_matrix` and
`shortest_path`.

Modelling conventions:
* A Python `dict` is an association list with unique keys kept in insertion
  order; `d[k] = v` updates the entry in place when the key exists and appends
  it otherwise, exactly like CPython.  A Python `set` is a duplicate-free list
  in insertion order (CPython's set iteration order is unspecified; the only
  place it can matter is tie-breaking inside `min` in `dijkstra`, which the
  spec declares implementation-defined).
* `defaultdict(list)` subscripting has the side effect of inserting an empty
  list under a missing key; `touch` models that side effect, so every method
  returns the possibly-updated `Graph` alongside its result.
* Python integers are unbounded, so weights and distances are `Nat`
  (negative weights are out of the spec's scope) and `sys.maxsize` is the
  64-bit literal `2^63 - 1`.
* Operations that would raise `KeyError` (`unvisited[neighbor]` on a missing
  key, `vertex_to_index[...]` on an unknown vertex) return `none`.
* The `processed` set in `dijkstra` (lines 72, 86-87) is only ever printed,
  never read for control flow, so it is not carried in the state; the
  `print` tracing statements are likewise omitted.
-/

namespace Cw

/-- Python's `sys.maxsize` on a 64-bit platform: the "infinity" sentinel. -/
def maxsize : Nat := 9223372036854775807

section Dict

variable {K : Type} {A : Type} [DecidableEq K]

/-- Dict read `d[k]`: `some v` for the first entry with key `k`, `none` when
the key is absent (Python would raise `KeyError`). -/
def dlookup : List (K × A) → K → Option A
  | [], _ => none
  | p :: rest, k => if p.1 = k then some p.2 else dlookup rest k

/-- Dict write `d[k] = v`: update in place when the key exists, append
otherwise. -/
def dset (d : List (K × A)) (k : K) (v : A) : List (K × A) :=
  if (dlookup d k).isSome then d.map (fun p => if p.1 = k then (k, v) else p)
  else d ++ [(k, v)]

/-- Dict removal `d.pop(k, None)` / `d.pop(k)`: drop the entry with key `k`. -/
def dpop (d : List (K × A)) (k : K) : List (K × A) :=
  d.filter (fun p => decide (p.1 ≠ k))

/-- The key list of a dict, in order. -/
def keys (d : List (K × A)) : List K := d.map Prod.fst

/-- Read of a `defaultdict(list)` entry: the stored list, or `[]` when the
key is absent. -/
def lookupD (al : List (K × List A)) (k : K) : List A := (dlookup al k).getD []

/-- The insertion side effect of subscripting a `defaultdict(list)` with a
missing key: an empty list is stored under it. -/
def touch (al : List (K × List A)) (k : K) : List (K × List A) :=
  if (dlookup al k).isSome then al else al ++ [(k, [])]

end Dict

/-- Python's `set.add`: append when absent (`self.vertices.add(...)`). -/
def sadd {K : Type} [DecidableEq K] (s : List K) (x : K) : List K :=
  if x ∈ s then s else s ++ [x]

/-- The state of `class Graph` (main.py lines 6-13). -/
structure Graph (V : Type) where
  num_vertices : Nat
  adjacency_list : List (V × List (V × Nat))
  vertices : List V
  deriving DecidableEq, Repr

variable {V : Type} [DecidableEq V]

/-- Python's `Graph.__init__` (lines 7-13); the spec's
`new_graph(vertex_count_hint)`. -/
def new_graph (n : Nat) : Graph V :=
  { num_vertices := n, adjacency_list := [], vertices := [] }

/-- Python's `Graph.add_edge` (lines 15-20): `self.adjacency_list[src]` is
touched and then appended to; both endpoints enter the vertex set. -/
def add_edge (g : Graph V) (src dest : V) (weight : Nat) : Graph V :=
  let al := touch g.adjacency_list src
  { g with
    adjacency_list := dset al src (lookupD al src ++ [(dest, weight)])
    vertices := sadd (sadd g.vertices src) dest }

/-- Python's `Graph.remove_vertex` (lines 22-28): when present, remove from the vertex
set, pop the vertex's own adjacency entry, and filter it out of every other
outgoing list; otherwise do nothing. -/
def remove_vertex (g : Graph V) (vertex : V) : Graph V :=
  if vertex ∈ g.vertices then
    { g with
      vertices := g.vertices.filter (fun x => decide (x ≠ vertex))
      adjacency_list := (dpop g.adjacency_list vertex).map
        (fun p => (p.1, p.2.filter (fun e => decide (e.1 ≠ vertex)))) }
  else g

/-- Python's `Graph.add_vertex` (lines 30-33). -/
def add_vertex (g : Graph V) (vertex : V) : Graph V :=
  if vertex ∈ g.vertices then g else { g with vertices := g.vertices ++ [vertex] }

section Matrix

/-- Write `m[i][j] = w` on a list-of-rows matrix; out-of-range writes are
no-ops (never exercised: the indices come from `vertex_to_index`). -/
def set2 (m : List (List Nat)) (i j w : Nat) : List (List Nat) :=
  match m[i]? with
  | some row => m.set i (row.set j w)
  | none => m

/-- Read `m[i][j]` on a list-of-rows matrix. -/
def get2 (m : List (List Nat)) (i j : Nat) : Option Nat :=
  m[i]?.bind fun row => row[j]?

variable [LinearOrder V]

/-- Insert into a sorted list, keeping order (helper for `sorted(...)`). -/
def insertOrd (x : V) : List V → List V
  | [] => [x]
  | y :: ys => if x ≤ y then x :: y :: ys else y :: insertOrd x ys

/-- Python's `sorted`: ascending insertion sort. -/
def sortedList (l : List V) : List V := l.foldr insertOrd []

/-- The inner loop of `create_adjacency_matrix` (lines 42-44): for each
`(dest, weight)` of `src`, write the weight into both mirror cells; a
`vertex_to_index` miss is a `KeyError` (`none`). -/
def writeEdges (vti : List (V × Nat)) (src : V) :
    List (V × Nat) → List (List Nat) → Option (List (List Nat))
  | [], m => some m
  | (dest, w) :: es, m =>
    match dlookup vti src, dlookup vti dest with
    | some i, some j => writeEdges vti src es (set2 (set2 m i j w) j i w)
    | _, _ => none

/-- The outer loop of `create_adjacency_matrix` (line 41): iterate the
adjacency keys; `self.adjacency_list[src]` touches `src` (a no-op, since
`src` is already a key). -/
def camLoop (vti : List (V × Nat)) :
    List V → List (V × List (V × Nat)) → List (List Nat) →
      Option (List (List Nat)) × List (V × List (V × Nat))
  | [], al, m => (some m, al)
  | src :: rest, al, m =>
    let al' := touch al src
    match writeEdges vti src (lookupD al' src) m with
    | none => (none, al')
    | some m' => camLoop vti rest al' m'

/-- Python's `Graph.create_adjacency_matrix` (lines 35-46); the spec's
`build_matrix`.
Returns the matrix and the `vertex_to_index` mapping, plus the (unchanged)
graph state. -/
def create_adjacency_matrix (g : Graph V) :
    Option (List (List Nat) × List (V × Nat)) × Graph V :=
  let n := g.vertices.length
  let m0 := List.replicate n (List.replicate n maxsize)
  let vti := (sortedList g.vertices).enum.map (fun p => (p.2, p.1))
  match camLoop vti (keys g.adjacency_list) g.adjacency_list m0 with
  | (none, al) => (none, { g with adjacency_list := al })
  | (some m, al) => (some (m, vti), { g with adjacency_list := al })

end Matrix

/-- Python's `min(unvisited, key=unvisited.get)` over a nonempty dict
`p :: l`:
the first entry attaining the minimal value (Python's `min` keeps the
earliest of equals). -/
def minPair (p : V × Nat) (l : List (V × Nat)) : V × Nat :=
  l.foldl (fun best q => if q.2 < best.2 then q else best) p

/-- One relaxation (lines 90-95): skip neighbors already in `visited`;
otherwise read `unvisited[neighbor]` (`KeyError` → `none`) and update
distance and predecessor when strictly better. -/
def relaxStep (current : V) (current_distance : Nat) (visited : List (V × Nat))
    (st : List (V × Nat) × List (V × V)) (e : V × Nat) :
    Option (List (V × Nat) × List (V × V)) :=
  if (dlookup visited e.1).isSome then some st
  else
    match dlookup st.1 e.1 with
    | none => none
    | some old =>
      if current_distance + e.2 < old then
        some (dset st.1 e.1 (current_distance + e.2), dset st.2 e.1 current)
      else some st

/-- The `for neighbor, weight in self.adjacency_list[current_vertex]` loop
(line 89), folding `relaxStep` over the edge list. -/
def relaxAll (current : V) (d : Nat) (visited : List (V × Nat)) :
    List (V × Nat) → List (V × Nat) × List (V × V) →
      Option (List (V × Nat) × List (V × V))
  | [], st => some st
  | e :: es, st =>
    match relaxStep current d visited st e with
    | none => none
    | some st' => relaxAll current d visited es st'

/-- The `while unvisited:` loop (lines 79-103).  `fuel` bounds the number of
iterations; since every iteration removes the current vertex from
`unvisited`, fuel `unvisited.length` always suffices (proved below), so the
fuel never changes the semantics.  `current_distance` is the minimal pair's
value, which equals `unvisited[current_vertex]` because dict keys are
unique. -/
def dijkstraLoop (endv : V) : Nat → List (V × Nat) → List (V × Nat) →
    List (V × V) → List (V × List (V × Nat)) →
    Option (List (V × Nat) × List (V × V) × List (V × List (V × Nat)))
  | _, [], visited, predecessors, al => some (visited, predecessors, al)
  | 0, _ :: _, _, _, _ => none
  | fuel + 1, u :: rest, visited, predecessors, al =>
    let cur := (minPair u rest).1
    let current_distance := (minPair u rest).2
    let al' := touch al cur
    match relaxAll cur current_distance visited (lookupD al' cur)
        (u :: rest, predecessors) with
    | none => none
    | some (unvisited', predecessors') =>
      let visited' := dset visited cur current_distance
      let unvisited'' := dpop unvisited' cur
      if cur = endv then some (visited', predecessors', al')
      else dijkstraLoop endv fuel unvisited'' visited' predecessors' al'

/-- The path-reconstruction loop (lines 106-110): walk predecessor links
backward, prepending each visited label.  The fuel (one more than the number
of predecessor entries) models the possibility of a non-terminating Python
`while` on a cyclic predecessor map (`none`); with the acyclic maps Dijkstra
produces it is never exhausted. -/
def walk (predecessors : List (V × V)) : Nat → V → List V → Option (List V)
  | fuel + 1, current, path =>
    match dlookup predecessors current with
    | some p => walk predecessors fuel p (current :: path)
    | none => some path
  | 0, current, path =>
    match dlookup predecessors current with
    | some _ => none
    | none => some path

/-- Python's `Graph.dijkstra` (lines 64-114).  Initializes `unvisited` to
`maxsize`
for every vertex and `0` for `start` (inserted when absent), runs the main
loop, reconstructs the path (prepending `start` only when nonempty, lines
111-112), and returns `(path, visited.get(end, sys.maxsize))` together with
the possibly-touched graph state. -/
def dijkstra (g : Graph V) (start endv : V) :
    Option ((List V × Nat) × Graph V) :=
  let unvisited := dset (g.vertices.map (fun v => (v, maxsize))) start 0
  match dijkstraLoop endv unvisited.length unvisited [] [] g.adjacency_list with
  | none => none
  | some (visited, predecessors, al) =>
    match walk predecessors (predecessors.length + 1) endv [] with
    | none => none
    | some path =>
      some ((if path = [] then [] else start :: path,
             (dlookup visited endv).getD maxsize),
            { g with adjacency_list := al })

/-- The spec's name for the shortest-path entry point. -/
def shortest_path (g : Graph V) (s e : V) : Option ((List V × Nat) × Graph V) :=
  dijkstra g s e

/-- The Graph-Store invariant of spec §3: every stored edge endpoint (the
source key and each destination) is a member of the vertex set. -/
def StoreInv (g : Graph V) : Prop :=
  ∀ p ∈ g.adjacency_list, p.1 ∈ g.vertices ∧ ∀ q ∈ p.2, q.1 ∈ g.vertices

instance StoreInv.dec (g : Graph V) : Decidable (StoreInv g) :=
  decidable_of_iff
    (∀ p ∈ g.adjacency_list, p.1 ∈ g.vertices ∧ ∀ q ∈ p.2, q.1 ∈ g.vertices)
    Iff.rfl

/-- Directed reachability along stored edges. -/
def Reach (g : Graph V) (a b : V) : Prop :=
  Relation.ReflTransGen
    (fun x y => ∃ w, (y, w) ∈ lookupD g.adjacency_list x) a b

/-- A square shape of side `n` for a list-of-rows matrix. -/
def Shape (n : Nat) (m : List (List Nat)) : Prop :=
  m.length = n ∧ ∀ r ∈ m, r.length = n

/-- Cell `(a, b)` of the adjacency matrix is touched by no stored edge, in
either orientation, under the index mapping `vti`. -/
def UntouchedCell (g : Graph V) (vti : List (V × Nat)) (a b : Nat) : Prop :=
  ∀ p ∈ g.adjacency_list, ∀ q ∈ p.2,
    ¬(dlookup vti p.1 = some a ∧ dlookup vti q.1 = some b) ∧
    ¬(dlookup vti p.1 = some b ∧ dlookup vti q.1 = some a)

/-- A one-vertex graph `{A}` with no edges (`add_vertex` on a fresh graph). -/
def gA : Graph String := add_vertex (new_graph 1) "A"

/-- The spec §8 example graph: edges A→B (4), B→C (3), A→C (10). -/
def gABC : Graph String :=
  add_edge (add_edge (add_edge (new_graph 3) "A" "B" 4) "B" "C" 3) "A" "C" 10

/-- The spec §8 matrix example graph: vertices `{A, B}`, single edge A→B (5). -/
def gAB5 : Graph String := add_edge (new_graph 2) "A" "B" 5

/-- The same example with `Char` labels (`String`'s order is not
kernel-reducible, `Char`'s is, and the matrix builder sorts the labels). -/
def gABchar : Graph Char := add_edge (new_graph 2) 'A' 'B' 5

/-- The state `gA` reaches after one `dijkstra` call: the defaultdict has
acquired an empty entry for A. -/
def gAtouched : Graph String :=
  { num_vertices := 1, adjacency_list := [("A", [])], vertices := ["A"] }

/-! ### Dictionary lemmas -/

section DictLemmas

variable {K : Type} {A : Type} [DecidableEq K]

@[simp] theorem dlookup_nil (k : K) : dlookup ([] : List (K × A)) k = none := rfl

@[simp] theorem dlookup_cons (p : K × A) (d : List (K × A)) (k : K) :
    dlookup (p :: d) k = if p.1 = k then some p.2 else dlookup d k := rfl

@[simp] theorem keys_nil : keys ([] : List (K × A)) = [] := rfl

@[simp] theorem keys_cons (p : K × A) (d : List (K × A)) :
    keys (p :: d) = p.1 :: keys d := rfl

theorem keys_append (d₁ d₂ : List (K × A)) :
    keys (d₁ ++ d₂) = keys d₁ ++ keys d₂ := List.map_append _ _ _

theorem dlookup_isSome_iff {d : List (K × A)} {k : K} :
    (dlookup d k).isSome ↔ k ∈ keys d := by
  induction d with
  | nil => simp
  | cons p rest ih =>
    by_cases h : p.1 = k
    · simp [h]
    · simp only [dlookup_cons, h, if_false, keys_cons, List.mem_cons, ih]
      constructor
      · exact Or.inr
      · rintro (hk | hk)
        · exact absurd hk.symm h
        · exact hk

theorem dlookup_append (d₁ d₂ : List (K × A)) (x : K) :
    dlookup (d₁ ++ d₂) x =
      if (dlookup d₁ x).isSome then dlookup d₁ x else dlookup d₂ x := by
  induction d₁ with
  | nil => simp
  | cons p rest ih =>
    by_cases h : p.1 = x <;> simp [h, ih]

theorem dlookup_map_update (d : List (K × A)) (k : K) (v : A) :
    dlookup (d.map fun p => if p.1 = k then (k, v) else p) k =
      (dlookup d k).map fun _ => v := by
  induction d with
  | nil => simp
  | cons p rest ih =>
    by_cases h : p.1 = k
    · simp [h]
    · simp only [List.map_cons, h, if_false, dlookup_cons, ih]

theorem dlookup_map_update_ne (d : List (K × A)) {k x : K} (v : A)
    (hx : x ≠ k) :
    dlookup (d.map fun p => if p.1 = k then (k, v) else p) x = dlookup d x := by
  induction d with
  | nil => simp
  | cons p rest ih =>
    by_cases h : p.1 = k
    · have h1 : ¬((k, v).1 = x) := fun hkx => hx hkx.symm
      have h2 : ¬(p.1 = x) := by
        rw [h]
        exact fun hkx => hx hkx.symm
      simp only [List.map_cons, if_pos h, dlookup_cons, if_neg h1, if_neg h2, ih]
    · by_cases h2 : p.1 = x
      · simp only [List.map_cons, if_neg h, dlookup_cons, if_pos h2]
      · simp only [List.map_cons, if_neg h, dlookup_cons, if_neg h2, ih]

theorem keys_map_update (d : List (K × A)) (k : K) (v : A) :
    keys (d.map fun p => if p.1 = k then (k, v) else p) = keys d := by
  unfold keys
  rw [List.map_map]
  apply List.map_congr_left
  intro p _
  by_cases hp : p.1 = k <;> simp [hp]

theorem dlookup_mem {d : List (K × A)} {k : K} {v : A}
    (h : dlookup d k = some v) : (k, v) ∈ d := by
  induction d with
  | nil => simp at h
  | cons p rest ih =>
    by_cases hp : p.1 = k
    · simp [hp] at h
      subst hp h
      simp
    · simp [hp] at h
      exact List.mem_cons_of_mem _ (ih h)

theorem mem_keys_of_mem {d : List (K × A)} {p : K × A} (h : p ∈ d) :
    p.1 ∈ keys d := List.mem_map_of_mem _ h

theorem dlookup_of_not_mem_keys {d : List (K × A)} {k : K}
    (h : k ∉ keys d) : dlookup d k = none := by
  cases hd : dlookup d k with
  | none => rfl
  | some v => exact absurd (mem_keys_of_mem (dlookup_mem hd)) h

theorem dlookup_dset_self (d : List (K × A)) (k : K) (v : A) :
    dlookup (dset d k v) k = some v := by
  unfold dset
  by_cases h : (dlookup d k).isSome
  · rw [if_pos h, dlookup_map_update]
    obtain ⟨w, hw⟩ := Option.isSome_iff_exists.mp h
    simp [hw]
  · rw [if_neg h, dlookup_append, if_neg h]
    simp

theorem dlookup_dset_ne (d : List (K × A)) {k x : K} (v : A) (h : x ≠ k) :
    dlookup (dset d k v) x = dlookup d x := by
  unfold dset
  by_cases hs : (dlookup d k).isSome
  · rw [if_pos hs, dlookup_map_update_ne d v h]
  · rw [if_neg hs, dlookup_append]
    by_cases hx : (dlookup d x).isSome
    · rw [if_pos hx]
    · rw [if_neg hx]
      simp [show ¬(k = x) from fun hkx => h hkx.symm]
      cases hd : dlookup d x with
      | none => rfl
      | some w => simp [hd] at hx

theorem mem_dset {d : List (K × A)} {k : K} {v : A} {p : K × A}
    (h : p ∈ dset d k v) : p = (k, v) ∨ p ∈ d := by
  unfold dset at h
  by_cases hs : (dlookup d k).isSome
  · rw [if_pos hs] at h
    obtain ⟨q, hq, hqp⟩ := List.mem_map.mp h
    by_cases hqk : q.1 = k
    · rw [if_pos hqk] at hqp
      exact Or.inl hqp.symm
    · rw [if_neg hqk] at hqp
      exact Or.inr (hqp ▸ hq)
  · rw [if_neg hs] at h
    rcases List.mem_append.mp h with h | h
    · exact Or.inr h
    · exact Or.inl (List.mem_singleton.mp h)

theorem keys_dset_of_mem {d : List (K × A)} {k : K} (v : A)
    (h : k ∈ keys d) : keys (dset d k v) = keys d := by
  unfold dset
  rw [if_pos (dlookup_isSome_iff.mpr h), keys_map_update]

theorem keys_dset_sub (d : List (K × A)) (k : K) (v : A) :
    keys d ⊆ keys (dset d k v) := by
  unfold dset
  by_cases hs : (dlookup d k).isSome
  · rw [if_pos hs, keys_map_update]
    exact fun _ hx => hx
  · rw [if_neg hs, keys_append]
    exact List.subset_append_left _ _

theorem mem_keys_dset_self (d : List (K × A)) (k : K) (v : A) :
    k ∈ keys (dset d k v) :=
  mem_keys_of_mem (dlookup_mem (dlookup_dset_self d k v))

theorem length_dset_of_mem {d : List (K × A)} {k : K} (v : A)
    (h : k ∈ keys d) : (dset d k v).length = d.length := by
  unfold dset
  rw [if_pos (dlookup_isSome_iff.mpr h)]
  exact List.length_map _ _

theorem mem_dpop {d : List (K × A)} {k : K} {p : K × A} :
    p ∈ dpop d k ↔ p ∈ d ∧ p.1 ≠ k := by
  unfold dpop
  simp

theorem mem_keys_dpop {d : List (K × A)} {k x : K} :
    x ∈ keys (dpop d k) ↔ x ∈ keys d ∧ x ≠ k := by
  unfold keys
  simp only [List.mem_map]
  constructor
  · rintro ⟨p, hp, rfl⟩
    obtain ⟨hd, hk⟩ := mem_dpop.mp hp
    exact ⟨⟨p, hd, rfl⟩, hk⟩
  · rintro ⟨⟨p, hd, rfl⟩, hk⟩
    exact ⟨p, mem_dpop.mpr ⟨hd, hk⟩, rfl⟩

theorem length_dpop_lt {d : List (K × A)} {k : K} (h : k ∈ keys d) :
    (dpop d k).length < d.length := by
  unfold dpop
  obtain ⟨p, hp, hk⟩ := List.mem_map.mp h
  apply List.length_filter_lt_length_iff_exists.mpr
  exact ⟨p, hp, by simp [hk]⟩

theorem length_dpop_of_nodup {d : List (K × A)} {k : K}
    (hn : (keys d).Nodup) (h : k ∈ keys d) :
    (dpop d k).length + 1 = d.length := by
  induction d with
  | nil => simp at h
  | cons p rest ih =>
    simp only [keys_cons, List.nodup_cons] at hn
    by_cases hp : p.1 = k
    · have : dpop (p :: rest) k = dpop rest k := by
        unfold dpop
        simp [hp]
      rw [this]
      have : dpop rest k = rest := by
        unfold dpop
        apply List.filter_eq_self.mpr
        intro q hq
        simp only [decide_eq_true_eq]
        intro hqk
        apply hn.1
        have hm := mem_keys_of_mem hq
        rw [hqk, ← hp] at hm
        exact hm
      simp [this]
    · have hk : k ∈ keys rest := by
        simp only [keys_cons, List.mem_cons] at h
        tauto
      have : dpop (p :: rest) k = p :: dpop rest k := by
        unfold dpop
        simp [hp]
      rw [this]
      simp only [List.length_cons]
      rw [← ih hn.2 hk]

theorem lookupD_touch (al : List (K × List A)) (k x : K) :
    lookupD (touch al k) x = lookupD al x := by
  unfold touch
  by_cases hs : (dlookup al k).isSome
  · rw [if_pos hs]
  · rw [if_neg hs]
    unfold lookupD
    rw [dlookup_append]
    by_cases hx : (dlookup al x).isSome
    · rw [if_pos hx]
    · rw [if_neg hx]
      cases hd : dlookup al x with
      | some w => simp [hd] at hx
      | none =>
        by_cases hkx : k = x <;> simp [hkx]

theorem touch_of_mem {al : List (K × List A)} {k : K}
    (h : k ∈ keys al) : touch al k = al := by
  unfold touch
  rw [if_pos (dlookup_isSome_iff.mpr h)]

theorem keys_touch_sub (al : List (K × List A)) (k : K) :
    keys al ⊆ keys (touch al k) := by
  unfold touch
  by_cases hs : (dlookup al k).isSome
  · rw [if_pos hs]
    exact fun _ hx => hx
  · rw [if_neg hs, keys_append]
    exact List.subset_append_left _ _

theorem mem_lookupD {al : List (K × List A)} {k : K} {q : A}
    (h : q ∈ lookupD al k) : ∃ l, (k, l) ∈ al ∧ q ∈ l := by
  unfold lookupD at h
  cases hd : dlookup al k with
  | none => simp [hd] at h
  | some l => exact ⟨l, dlookup_mem hd, by simpa [hd] using h⟩

end DictLemmas

/-! ### minPair lemmas -/

theorem minPair_spec (u : V × Nat) (l : List (V × Nat)) :
    minPair u l ∈ u :: l ∧ ∀ q ∈ u :: l, (minPair u l).2 ≤ q.2 := by
  induction l generalizing u with
  | nil => simp [minPair]
  | cons q rest ih =>
    have hstep : minPair u (q :: rest) = minPair (if q.2 < u.2 then q else u) rest := by
      simp [minPair]
    obtain ⟨ihm, ihle⟩ := ih (if q.2 < u.2 then q else u)
    constructor
    · rw [hstep]
      rcases List.mem_cons.mp ihm with h | h
      · rw [h]
        by_cases hq : q.2 < u.2 <;> simp [hq]
      · exact List.mem_cons_of_mem _ (List.mem_cons_of_mem _ h)
    · intro r hr
      rw [hstep]
      have hinit : (minPair (if q.2 < u.2 then q else u) rest).2 ≤
          (if q.2 < u.2 then q else u).2 := ihle _ (List.mem_cons_self _ _)
      have hiu : (if q.2 < u.2 then q else u).2 ≤ u.2 := by
        by_cases hq : q.2 < u.2 <;> simp [hq]
        omega
      have hiq : (if q.2 < u.2 then q else u).2 ≤ q.2 := by
        by_cases hq : q.2 < u.2 <;> simp [hq]
        omega
      rcases List.mem_cons.mp hr with h | h
      · rw [h]
        exact le_trans hinit hiu
      · rcases List.mem_cons.mp h with h' | h'
        · rw [h']
          exact le_trans hinit hiq
        · exact ihle _ (List.mem_cons_of_mem _ h')

/-! ### Dijkstra loop invariants -/

theorem maxsize_ne_zero : maxsize ≠ 0 := by decide

theorem Reach.tail_edge {g : Graph V} {s cur n : V} {w : Nat}
    (h : Reach g s cur) (hm : (n, w) ∈ lookupD g.adjacency_list cur) :
    Reach g s n :=
  Relation.ReflTransGen.tail h ⟨w, hm⟩

/-- Invariant preservation and totality of the relaxation loop: given that
every scanned edge really is an outgoing edge of `cur` in the graph and every
neighbor is covered by `unvisited ∪ visited`, the loop succeeds, preserves
the key list of `unvisited`, keeps every tentative distance at most the
sentinel with finite distances only on reachable vertices, keeps every
predecessor entry on a reachable stored vertex, and never disturbs a vertex
whose tentative distance is `0`. -/
theorem relaxAll_spec (g : Graph V) (s cur : V) (d : Nat)
    (hcur : d < maxsize → Reach g s cur) :
    ∀ (edges : List (V × Nat)) (unv vis : List (V × Nat)) (preds : List (V × V)),
      (∀ q ∈ edges, q ∈ lookupD g.adjacency_list cur) →
      (∀ q ∈ edges, q.1 ∈ g.vertices) →
      (∀ q ∈ edges, q.1 ∈ keys unv ∨ q.1 ∈ keys vis) →
      (∀ p ∈ unv, p.2 ≤ maxsize ∧ (p.2 < maxsize → Reach g s p.1)) →
      (∀ p ∈ unv, p.1 ∈ g.vertices ∨ p.1 = s) →
      (∀ p ∈ preds, p.1 ∈ g.vertices ∧ Reach g s p.1) →
      ∃ unv' preds',
        relaxAll cur d vis edges (unv, preds) = some (unv', preds') ∧
        keys unv' = keys unv ∧
        (∀ p ∈ unv', p.2 ≤ maxsize ∧ (p.2 < maxsize → Reach g s p.1)) ∧
        (∀ p ∈ unv', p.1 ∈ g.vertices ∨ p.1 = s) ∧
        (∀ p ∈ preds', p.1 ∈ g.vertices ∧ Reach g s p.1) ∧
        (∀ x, dlookup unv x = some 0 →
          dlookup unv' x = some 0 ∧ dlookup preds' x = dlookup preds x) := by
  intro edges
  induction edges with
  | nil =>
    intro unv vis preds _ _ _ hlab hver hpreds
    exact ⟨unv, preds, rfl, rfl, hlab, hver, hpreds, fun x hx => ⟨hx, rfl⟩⟩
  | cons q es ih =>
    intro unv vis preds hedge hevert hcov hlab hver hpreds
    have hq : q ∈ lookupD g.adjacency_list cur := hedge q (List.mem_cons_self _ _)
    have hqv : q.1 ∈ g.vertices := hevert q (List.mem_cons_self _ _)
    by_cases hvis : (dlookup vis q.1).isSome
    · have hstep : relaxStep cur d vis (unv, preds) q = some (unv, preds) := by
        unfold relaxStep
        rw [if_pos hvis]
      have : relaxAll cur d vis (q :: es) (unv, preds) =
          relaxAll cur d vis es (unv, preds) := by
        simp only [relaxAll, hstep]
      rw [this]
      exact ih unv vis preds (fun r hr => hedge r (List.mem_cons_of_mem _ hr))
        (fun r hr => hevert r (List.mem_cons_of_mem _ hr))
        (fun r hr => hcov r (List.mem_cons_of_mem _ hr)) hlab hver hpreds
    · have hqu : q.1 ∈ keys unv := by
        rcases hcov q (List.mem_cons_self _ _) with h | h
        · exact h
        · exact absurd (dlookup_isSome_iff.mpr h) hvis
      obtain ⟨old, hold⟩ := Option.isSome_iff_exists.mp (dlookup_isSome_iff.mpr hqu)
      have holdm : (q.1, old) ∈ unv := dlookup_mem hold
      have hole : old ≤ maxsize := (hlab _ holdm).1
      by_cases himp : d + q.2 < old
      · have hstep : relaxStep cur d vis (unv, preds) q =
            some (dset unv q.1 (d + q.2), dset preds q.1 cur) := by
          unfold relaxStep
          rw [if_neg hvis, hold]
          simp only [if_pos himp]
        have hred : relaxAll cur d vis (q :: es) (unv, preds) =
            relaxAll cur d vis es (dset unv q.1 (d + q.2), dset preds q.1 cur) := by
          simp only [relaxAll, hstep]
        have hnewlt : d + q.2 < maxsize := lt_of_lt_of_le himp hole
        have hdlt : d < maxsize := lt_of_le_of_lt (Nat.le_add_right d q.2) hnewlt
        have hreachq : Reach g s q.1 := (hcur hdlt).tail_edge hq
        have hkeys : keys (dset unv q.1 (d + q.2)) = keys unv :=
          keys_dset_of_mem _ hqu
        have hlab' : ∀ p ∈ dset unv q.1 (d + q.2),
            p.2 ≤ maxsize ∧ (p.2 < maxsize → Reach g s p.1) := by
          intro p hp
          rcases mem_dset hp with h | h
          · rw [h]
            exact ⟨le_of_lt hnewlt, fun _ => hreachq⟩
          · exact hlab p h
        have hver' : ∀ p ∈ dset unv q.1 (d + q.2),
            p.1 ∈ g.vertices ∨ p.1 = s := by
          intro p hp
          rcases mem_dset hp with h | h
          · rw [h]
            exact Or.inl hqv
          · exact hver p h
        have hpreds' : ∀ p ∈ dset preds q.1 cur,
            p.1 ∈ g.vertices ∧ Reach g s p.1 := by
          intro p hp
          rcases mem_dset hp with h | h
          · rw [h]
            exact ⟨hqv, hreachq⟩
          · exact hpreds p h
        have hcov' : ∀ r ∈ es, r.1 ∈ keys (dset unv q.1 (d + q.2)) ∨
            r.1 ∈ keys vis := by
          intro r hr
          rw [hkeys]
          exact hcov r (List.mem_cons_of_mem _ hr)
        obtain ⟨unv', preds', heq, hk, hl, hv, hp, hz⟩ :=
          ih (dset unv q.1 (d + q.2)) vis (dset preds q.1 cur)
            (fun r hr => hedge r (List.mem_cons_of_mem _ hr))
            (fun r hr => hevert r (List.mem_cons_of_mem _ hr))
            hcov' hlab' hver' hpreds'
        refine ⟨unv', preds', by rw [hred]; exact heq, by rw [hk, hkeys],
          hl, hv, hp, ?_⟩
        intro x hx
        have hxq : x ≠ q.1 := by
          intro h
          rw [h, hold] at hx
          have : old = 0 := by injection hx
          omega
        have hx' : dlookup (dset unv q.1 (d + q.2)) x = some 0 := by
          rw [dlookup_dset_ne _ _ hxq]
          exact hx
        obtain ⟨h1, h2⟩ := hz x hx'
        refine ⟨h1, ?_⟩
        rw [h2, dlookup_dset_ne _ _ hxq]
      · have hstep : relaxStep cur d vis (unv, preds) q = some (unv, preds) := by
          unfold relaxStep
          rw [if_neg hvis, hold]
          simp only [if_neg himp]
        have : relaxAll cur d vis (q :: es) (unv, preds) =
            relaxAll cur d vis es (unv, preds) := by
          simp only [relaxAll, hstep]
        rw [this]
        exact ih unv vis preds (fun r hr => hedge r (List.mem_cons_of_mem _ hr))
          (fun r hr => hevert r (List.mem_cons_of_mem _ hr))
          (fun r hr => hcov r (List.mem_cons_of_mem _ hr)) hlab hver hpreds

theorem keys_map_const_pair (l : List V) (c : Nat) :
    keys (l.map fun v => (v, c)) = l := by
  induction l with
  | nil => rfl
  | cons x xs ih => simp only [List.map_cons, keys_cons, ih]

/-- Master invariant lemma for the `while unvisited:` loop.  Starting from a
state whose invariants hold, with fuel at least the number of unvisited
entries, the loop terminates with a result whose visited distances are
bounded by the sentinel and finite only on vertices reachable from `s`,
whose predecessor entries all sit on stored, reachable vertices, whose
visited keys are drawn from the vertex set plus `s`, and whose adjacency
state still reads exactly like the graph's. -/
theorem dijkstraLoop_spec (g : Graph V) (s e : V)
    (hg : ∀ p ∈ g.adjacency_list, ∀ q ∈ p.2, q.1 ∈ g.vertices) :
    ∀ (fuel : Nat) (unv vis : List (V × Nat)) (preds : List (V × V))
      (al : List (V × List (V × Nat))),
      unv.length ≤ fuel →
      (∀ x, lookupD al x = lookupD g.adjacency_list x) →
      (∀ v ∈ g.vertices, v ∈ keys unv ∨ v ∈ keys vis) →
      (∀ p ∈ unv, p.2 ≤ maxsize ∧ (p.2 < maxsize → Reach g s p.1)) →
      (∀ p ∈ unv, p.1 ∈ g.vertices ∨ p.1 = s) →
      (∀ p ∈ vis, p.2 ≤ maxsize ∧ (p.2 < maxsize → Reach g s p.1)) →
      (∀ p ∈ vis, p.1 ∈ g.vertices ∨ p.1 = s) →
      (∀ p ∈ preds, p.1 ∈ g.vertices ∧ Reach g s p.1) →
      ∃ vis' preds' al',
        dijkstraLoop e fuel unv vis preds al = some (vis', preds', al') ∧
        (∀ x, lookupD al' x = lookupD g.adjacency_list x) ∧
        (∀ p ∈ vis', p.2 ≤ maxsize ∧ (p.2 < maxsize → Reach g s p.1)) ∧
        (∀ p ∈ vis', p.1 ∈ g.vertices ∨ p.1 = s) ∧
        (∀ p ∈ preds', p.1 ∈ g.vertices ∧ Reach g s p.1) := by
  intro fuel
  induction fuel with
  | zero =>
    intro unv vis preds al hfuel hal _ _ _ hvlab hvver hpreds
    have : unv = [] := List.length_eq_zero.mp (Nat.le_zero.mp hfuel)
    subst this
    exact ⟨vis, preds, al, rfl, hal, hvlab, hvver, hpreds⟩
  | succ fuel ih =>
    intro unv vis preds al hfuel hal hcov hlab hver hvlab hvver hpreds
    cases unv with
    | nil => exact ⟨vis, preds, al, rfl, hal, hvlab, hvver, hpreds⟩
    | cons u rest =>
      obtain ⟨hmp, hmple⟩ := minPair_spec u rest
      set mp := minPair u rest with hmpdef
      have hmplab := hlab mp hmp
      have hmpver := hver mp hmp
      have hedges : lookupD (touch al mp.1) mp.1 = lookupD g.adjacency_list mp.1 := by
        rw [lookupD_touch]
        exact hal mp.1
      have hev : ∀ q ∈ lookupD (touch al mp.1) mp.1, q.1 ∈ g.vertices := by
        rw [hedges]
        intro q hq
        obtain ⟨l, hl, hql⟩ := mem_lookupD hq
        exact hg _ hl q hql
      obtain ⟨unv', preds', heq, hk, hl, hv, hp, _⟩ :=
        relaxAll_spec g s mp.1 mp.2 hmplab.2 (lookupD (touch al mp.1) mp.1)
          (u :: rest) vis preds
          (by rw [hedges]; exact fun q hq => hq)
          hev
          (fun q hq => by
            rcases hcov q.1 (hev q hq) with h | h
            · exact Or.inl h
            · exact Or.inr h)
          hlab hver hpreds
      have hred : dijkstraLoop e (fuel + 1) (u :: rest) vis preds al =
          if mp.1 = e then
            some (dset vis mp.1 mp.2, preds', touch al mp.1)
          else
            dijkstraLoop e fuel (dpop unv' mp.1) (dset vis mp.1 mp.2) preds'
              (touch al mp.1) := by
        simp only [dijkstraLoop, ← hmpdef, heq]
      have hal' : ∀ x, lookupD (touch al mp.1) x = lookupD g.adjacency_list x := by
        intro x
        rw [lookupD_touch]
        exact hal x
      have hvlab' : ∀ p ∈ dset vis mp.1 mp.2,
          p.2 ≤ maxsize ∧ (p.2 < maxsize → Reach g s p.1) := by
        intro p hpm
        rcases mem_dset hpm with h | h
        · rw [h]
          exact hmplab
        · exact hvlab p h
      have hvver' : ∀ p ∈ dset vis mp.1 mp.2, p.1 ∈ g.vertices ∨ p.1 = s := by
        intro p hpm
        rcases mem_dset hpm with h | h
        · rw [h]
          exact hmpver
        · exact hvver p h
      by_cases hbreak : mp.1 = e
      · rw [hred, if_pos hbreak]
        exact ⟨dset vis mp.1 mp.2, preds', touch al mp.1, rfl, hal', hvlab',
          hvver', hp⟩
      · rw [hred, if_neg hbreak]
        have hmpk : mp.1 ∈ keys unv' := by
          rw [hk]
          exact mem_keys_of_mem hmp
        have hlen : (dpop unv' mp.1).length ≤ fuel := by
          have h1 : (dpop unv' mp.1).length < unv'.length := length_dpop_lt hmpk
          have h2 : unv'.length = (u :: rest).length := by
            have := congrArg List.length hk
            simpa [keys] using this
          simp only [List.length_cons] at hfuel h2
          omega
        apply ih (dpop unv' mp.1) (dset vis mp.1 mp.2) preds' (touch al mp.1)
          hlen hal'
        · intro v hvg
          rcases hcov v hvg with h | h
          · by_cases hvc : v = mp.1
            · right
              rw [hvc]
              exact mem_keys_dset_self _ _ _
            · left
              rw [← hk] at h
              exact mem_keys_dpop.mpr ⟨h, hvc⟩
          · right
            exact keys_dset_sub _ _ _ h
        · exact fun p hpm => hl p (mem_dpop.mp hpm).1
        · exact fun p hpm => hv p (mem_dpop.mp hpm).1
        · exact hvlab'
        · exact hvver'
        · exact hp

/-! ### Graph Store lemmas -/

theorem mem_sadd {s : List V} {x y : V} : x ∈ sadd s y ↔ x ∈ s ∨ x = y := by
  unfold sadd
  by_cases h : y ∈ s
  · rw [if_pos h]
    constructor
    · exact Or.inl
    · rintro (hx | hx)
      · exact hx
      · exact hx ▸ h
  · rw [if_neg h]
    simp

theorem sadd_sub (s : List V) (y : V) : s ⊆ sadd s y :=
  fun _ hx => mem_sadd.mpr (Or.inl hx)

theorem mem_sadd_self (s : List V) (y : V) : y ∈ sadd s y :=
  mem_sadd.mpr (Or.inr rfl)

theorem mem_touch {al : List (V × List (V × Nat))} {k : V}
    {p : V × List (V × Nat)} (h : p ∈ touch al k) : p ∈ al ∨ p = (k, []) := by
  unfold touch at h
  by_cases hs : (dlookup al k).isSome
  · rw [if_pos hs] at h
    exact Or.inl h
  · rw [if_neg hs] at h
    rcases List.mem_append.mp h with h | h
    · exact Or.inl h
    · exact Or.inr (List.mem_singleton.mp h)

theorem StoreInv_new_graph (n : Nat) : StoreInv (new_graph (V := V) n) := by
  intro p hp
  simp [new_graph] at hp

theorem StoreInv_add_edge {g : Graph V} (h : StoreInv g) (src dest : V)
    (w : Nat) : StoreInv (add_edge g src dest w) := by
  intro p hp
  simp only [add_edge] at hp ⊢
  have hsrc : src ∈ sadd (sadd g.vertices src) dest :=
    sadd_sub _ _ (mem_sadd_self _ _)
  have hdest : dest ∈ sadd (sadd g.vertices src) dest := mem_sadd_self _ _
  have hsub : g.vertices ⊆ sadd (sadd g.vertices src) dest :=
    fun x hx => sadd_sub _ _ (sadd_sub _ _ hx)
  rcases mem_dset hp with hpe | hpe
  · subst hpe
    refine ⟨hsrc, ?_⟩
    intro q hq
    rcases List.mem_append.mp hq with hq | hq
    · rw [lookupD_touch] at hq
      obtain ⟨l, hl, hql⟩ := mem_lookupD hq
      exact hsub ((h _ hl).2 q hql)
    · rw [List.mem_singleton.mp hq]
      exact hdest
  · rcases mem_touch hpe with hpe | hpe
    · obtain ⟨h1, h2⟩ := h p hpe
      exact ⟨hsub h1, fun q hq => hsub (h2 q hq)⟩
    · subst hpe
      exact ⟨hsrc, by simp⟩

theorem StoreInv_add_vertex {g : Graph V} (h : StoreInv g) (v : V) :
    StoreInv (add_vertex g v) := by
  intro p hp
  unfold add_vertex at hp ⊢
  by_cases hv : v ∈ g.vertices
  · rw [if_pos hv] at hp ⊢
    exact h p hp
  · rw [if_neg hv] at hp ⊢
    simp only
    obtain ⟨h1, h2⟩ := h p hp
    exact ⟨List.mem_append_left _ h1, fun q hq => List.mem_append_left _ (h2 q hq)⟩

theorem add_vertex_sub (g : Graph V) (v : V) :
    g.vertices ⊆ (add_vertex g v).vertices := by
  unfold add_vertex
  by_cases hv : v ∈ g.vertices
  · rw [if_pos hv]
    exact fun _ hx => hx
  · rw [if_neg hv]
    exact List.subset_append_left _ _

theorem StoreInv_remove_vertex {g : Graph V} (h : StoreInv g) (v : V) :
    StoreInv (remove_vertex g v) := by
  unfold remove_vertex
  by_cases hv : v ∈ g.vertices
  · rw [if_pos hv]
    intro p hp
    simp only at hp ⊢
    obtain ⟨q, hq, hqp⟩ := List.mem_map.mp hp
    obtain ⟨hqal, hqne⟩ := mem_dpop.mp hq
    obtain ⟨h1, h2⟩ := h q hqal
    subst hqp
    constructor
    · simp only [List.mem_filter, decide_eq_true_eq]
      exact ⟨h1, hqne⟩
    · intro r hr
      obtain ⟨hrq, hrne⟩ := List.mem_filter.mp hr
      simp only [decide_eq_true_eq] at hrne
      simp only [List.mem_filter, decide_eq_true_eq]
      exact ⟨h2 r hrq, hrne⟩
  · rw [if_neg hv]
    exact h

theorem keys_map_snd (al : List (V × List (V × Nat)))
    (f : V × List (V × Nat) → List (V × Nat)) :
    keys (al.map fun p => (p.1, f p)) = keys al := by
  unfold keys
  rw [List.map_map]
  apply List.map_congr_left
  intro p _
  rfl

/-- The main loop only changes the adjacency state through `touch`: reads
are unchanged and the key list only grows. -/
theorem dijkstraLoop_al (e : V) :
    ∀ (fuel : Nat) (unv vis : List (V × Nat)) (preds : List (V × V))
      (al : List (V × List (V × Nat)))
      (out : List (V × Nat) × List (V × V) × List (V × List (V × Nat))),
      dijkstraLoop e fuel unv vis preds al = some out →
      (∀ x, lookupD out.2.2 x = lookupD al x) ∧ keys al ⊆ keys out.2.2 := by
  intro fuel
  induction fuel with
  | zero =>
    intro unv vis preds al out h
    cases unv with
    | nil =>
      simp only [dijkstraLoop, Option.some.injEq] at h
      rw [← h]
      exact ⟨fun x => rfl, fun x hx => hx⟩
    | cons u rest => simp [dijkstraLoop] at h
  | succ fuel ih =>
    intro unv vis preds al out h
    cases unv with
    | nil =>
      simp only [dijkstraLoop, Option.some.injEq] at h
      rw [← h]
      exact ⟨fun x => rfl, fun x hx => hx⟩
    | cons u rest =>
      set mp := minPair u rest with hmp
      cases hra : relaxAll mp.1 mp.2 vis (lookupD (touch al mp.1) mp.1)
          (u :: rest, preds) with
      | none =>
        have hn : dijkstraLoop e (fuel + 1) (u :: rest) vis preds al = none := by
          simp only [dijkstraLoop, ← hmp, hra]
        rw [hn] at h
        cases h
      | some st =>
        obtain ⟨unv', preds'⟩ := st
        have hred : dijkstraLoop e (fuel + 1) (u :: rest) vis preds al =
            if mp.1 = e then some (dset vis mp.1 mp.2, preds', touch al mp.1)
            else dijkstraLoop e fuel (dpop unv' mp.1) (dset vis mp.1 mp.2)
              preds' (touch al mp.1) := by
          simp only [dijkstraLoop, ← hmp, hra]
        rw [hred] at h
        by_cases hb : mp.1 = e
        · rw [if_pos hb, Option.some.injEq] at h
          rw [← h]
          exact ⟨fun x => lookupD_touch al mp.1 x, keys_touch_sub al mp.1⟩
        · rw [if_neg hb] at h
          obtain ⟨h1, h2⟩ := ih _ _ _ _ _ h
          exact ⟨fun x => (h1 x).trans (lookupD_touch al mp.1 x),
            (keys_touch_sub al mp.1).trans h2⟩

/-- The relaxation loop never adds or removes `unvisited` keys: it only
updates values of keys already present. -/
theorem relaxAll_keys (cur : V) (d : Nat) (vis : List (V × Nat)) :
    ∀ (edges : List (V × Nat)) (unv : List (V × Nat)) (preds : List (V × V))
      (out : List (V × Nat) × List (V × V)),
      relaxAll cur d vis edges (unv, preds) = some out →
      keys out.1 = keys unv := by
  intro edges
  induction edges with
  | nil =>
    intro unv preds out h
    simp only [relaxAll, Option.some.injEq] at h
    rw [← h]
  | cons q es ih =>
    intro unv preds out h
    by_cases hvis : (dlookup vis q.1).isSome
    · have hstep : relaxStep cur d vis (unv, preds) q = some (unv, preds) := by
        unfold relaxStep
        rw [if_pos hvis]
      rw [show relaxAll cur d vis (q :: es) (unv, preds) =
          relaxAll cur d vis es (unv, preds) by simp only [relaxAll, hstep]] at h
      exact ih unv preds out h
    · cases hd : dlookup unv q.1 with
      | none =>
        have hstep : relaxStep cur d vis (unv, preds) q = none := by
          unfold relaxStep
          rw [if_neg hvis, hd]
        rw [show relaxAll cur d vis (q :: es) (unv, preds) = none by
          simp only [relaxAll, hstep]] at h
        exact Option.noConfusion h
      | some old =>
        by_cases hlt : d + q.2 < old
        · have hstep : relaxStep cur d vis (unv, preds) q =
              some (dset unv q.1 (d + q.2), dset preds q.1 cur) := by
            unfold relaxStep
            rw [if_neg hvis, hd]
            simp only [if_pos hlt]
          rw [show relaxAll cur d vis (q :: es) (unv, preds) =
              relaxAll cur d vis es (dset unv q.1 (d + q.2), dset preds q.1 cur) by
            simp only [relaxAll, hstep]] at h
          rw [ih _ _ _ h]
          exact keys_dset_of_mem _
            (dlookup_isSome_iff.mp (by rw [hd]; rfl))
        · have hstep : relaxStep cur d vis (unv, preds) q = some (unv, preds) := by
            unfold relaxStep
            rw [if_neg hvis, hd]
            simp only [if_neg hlt]
          rw [show relaxAll cur d vis (q :: es) (unv, preds) =
              relaxAll cur d vis es (unv, preds) by simp only [relaxAll, hstep]] at h
          exact ih unv preds out h

/-- The main loop is insensitive to extra fuel: any fuel at least the number
of unvisited entries computes the same result, because every iteration
strictly shrinks `unvisited`. -/
theorem dijkstraLoop_fuel (e : V) :
    ∀ (n fuel : Nat) (unv vis : List (V × Nat)) (preds : List (V × V))
      (al : List (V × List (V × Nat))),
      unv.length ≤ n → n ≤ fuel →
      dijkstraLoop e fuel unv vis preds al =
        dijkstraLoop e n unv vis preds al := by
  intro n
  induction n with
  | zero =>
    intro fuel unv vis preds al hn _
    have : unv = [] := List.length_eq_zero.mp (Nat.le_zero.mp hn)
    subst this
    cases fuel <;> rfl
  | succ n ih =>
    intro fuel unv vis preds al hn hf
    cases unv with
    | nil => cases fuel <;> rfl
    | cons u rest =>
      obtain ⟨f, rfl⟩ : ∃ f, fuel = f + 1 := ⟨fuel - 1, by omega⟩
      set mp := minPair u rest with hmp
      cases hra : relaxAll mp.1 mp.2 vis (lookupD (touch al mp.1) mp.1)
          (u :: rest, preds) with
      | none =>
        have h1 : dijkstraLoop e (f + 1) (u :: rest) vis preds al = none := by
          simp only [dijkstraLoop, ← hmp, hra]
        have h2 : dijkstraLoop e (n + 1) (u :: rest) vis preds al = none := by
          simp only [dijkstraLoop, ← hmp, hra]
        rw [h1, h2]
      | some st =>
        obtain ⟨unv', preds'⟩ := st
        have hkeys := relaxAll_keys mp.1 mp.2 vis _ _ _ _ hra
        have hlen : unv'.length = (u :: rest).length := by
          have := congrArg List.length hkeys
          simpa [keys] using this
        have hmpk : mp.1 ∈ keys unv' := by
          rw [hkeys]
          exact mem_keys_of_mem (minPair_spec u rest).1
        have hdpop : (dpop unv' mp.1).length ≤ n := by
          have := length_dpop_lt hmpk
          simp only [List.length_cons] at hn hlen
          omega
        have h1 : dijkstraLoop e (f + 1) (u :: rest) vis preds al =
            if mp.1 = e then some (dset vis mp.1 mp.2, preds', touch al mp.1)
            else dijkstraLoop e f (dpop unv' mp.1) (dset vis mp.1 mp.2) preds'
              (touch al mp.1) := by
          simp only [dijkstraLoop, ← hmp, hra]
        have h2 : dijkstraLoop e (n + 1) (u :: rest) vis preds al =
            if mp.1 = e then some (dset vis mp.1 mp.2, preds', touch al mp.1)
            else dijkstraLoop e n (dpop unv' mp.1) (dset vis mp.1 mp.2) preds'
              (touch al mp.1) := by
          simp only [dijkstraLoop, ← hmp, hra]
        rw [h1, h2]
        by_cases hb : mp.1 = e
        · rw [if_pos hb, if_pos hb]
        · rw [if_neg hb, if_neg hb]
          exact ih f _ _ _ _ hdpop (by omega)

/-- The outer loop of `create_adjacency_matrix` leaves the adjacency state
untouched whenever every iterated source is already a key (which is always
the case: it iterates the key list itself). -/
theorem camLoop_al_id [LinearOrder V] (vti : List (V × Nat)) :
    ∀ (srcs : List V) (al : List (V × List (V × Nat))) (m : List (List Nat)),
      (∀ s ∈ srcs, s ∈ keys al) → (camLoop vti srcs al m).2 = al := by
  intro srcs
  induction srcs with
  | nil =>
    intro al m _
    rfl
  | cons src rest ih =>
    intro al m hs
    have ht : touch al src = al := touch_of_mem (hs src (List.mem_cons_self _ _))
    cases hw : writeEdges vti src (lookupD (touch al src) src) m with
    | none =>
      have hc : camLoop vti (src :: rest) al m = (none, touch al src) := by
        simp only [camLoop, hw]
      rw [hc, ht]
    | some m' =>
      have hc : camLoop vti (src :: rest) al m =
          camLoop vti rest (touch al src) m' := by
        simp only [camLoop, hw]
      rw [hc, ht]
      exact ih al m' (fun x hx => hs x (List.mem_cons_of_mem _ hx))

/-! ### Matrix-builder lemmas -/

theorem shape_replicate (n c : Nat) :
    Shape n (List.replicate n (List.replicate n c)) := by
  constructor
  · exact List.length_replicate _ _
  · intro r hr
    rw [List.eq_of_mem_replicate hr]
    exact List.length_replicate _ _

theorem get2_replicate (n c a b : Nat) :
    get2 (List.replicate n (List.replicate n c)) a b =
      if a < n ∧ b < n then some c else none := by
  simp only [get2, List.getElem?_replicate]
  by_cases ha : a < n <;> by_cases hb : b < n <;>
    simp [ha, hb, List.getElem?_replicate]

theorem shape_set2 {n : Nat} {m : List (List Nat)} (h : Shape n m)
    (i j w : Nat) : Shape n (set2 m i j w) := by
  unfold set2
  cases hi : m[i]? with
  | none => exact h
  | some row =>
    obtain ⟨h1, h2⟩ := h
    constructor
    · rw [List.length_set]
      exact h1
    · intro r hr
      rcases List.mem_or_eq_of_mem_set hr with hr | hr
      · exact h2 r hr
      · rw [hr, List.length_set]
        exact h2 row (by
          obtain ⟨hlt, he⟩ := List.getElem?_eq_some.mp hi
          rw [← he]
          exact List.getElem_mem hlt)

theorem get2_set2 {n : Nat} {m : List (List Nat)} (hm : Shape n m)
    {i j : Nat} (hi : i < n) (hj : j < n) (w a b : Nat) :
    get2 (set2 m i j w) a b = if a = i ∧ b = j then some w else get2 m a b := by
  obtain ⟨h1, h2⟩ := hm
  have him : i < m.length := by omega
  have hrowlen : m[i].length = n := h2 _ (List.getElem_mem him)
  have hset2 : set2 m i j w = m.set i (m[i].set j w) := by
    unfold set2
    rw [List.getElem?_eq_getElem him]
  rw [hset2]
  unfold get2
  by_cases hai : a = i
  · subst hai
    rw [List.getElem?_set_self him, Option.some_bind]
    by_cases hbj : b = j
    · subst hbj
      rw [List.getElem?_set_self (by omega), if_pos ⟨rfl, rfl⟩]
    · rw [List.getElem?_set_ne (fun h => hbj h.symm),
        if_neg (fun h => hbj h.2), List.getElem?_eq_getElem him,
        Option.some_bind]
  · rw [List.getElem?_set_ne (fun h => hai h.symm), if_neg (fun h => hai h.1)]

theorem symm_write_pair {n : Nat} {m : List (List Nat)} (hm : Shape n m)
    (hsym : ∀ a b, get2 m a b = get2 m b a) {i j : Nat} (hi : i < n)
    (hj : j < n) (w : Nat) :
    ∀ a b, get2 (set2 (set2 m i j w) j i w) a b =
      get2 (set2 (set2 m i j w) j i w) b a := by
  intro a b
  have hm1 : Shape n (set2 m i j w) := shape_set2 hm i j w
  have hval : ∀ x y : Nat,
      (if x = j ∧ y = i then some w else if x = i ∧ y = j then some w
        else get2 m x y) =
      (if (x = j ∧ y = i) ∨ (x = i ∧ y = j) then some w else get2 m x y) := by
    intro x y
    by_cases c1 : x = j ∧ y = i
    · simp [c1]
    · by_cases c2 : x = i ∧ y = j <;> simp [c1, c2]
  rw [get2_set2 hm1 hj hi, get2_set2 hm hi hj,
    get2_set2 hm1 hj hi, get2_set2 hm hi hj, hval, hval]
  by_cases hcond : (a = j ∧ b = i) ∨ (a = i ∧ b = j)
  · rw [if_pos hcond, if_pos (by tauto)]
  · rw [if_neg hcond, if_neg (by tauto), hsym a b]

theorem writeEdges_shape [LinearOrder V] (vti : List (V × Nat)) (src : V)
    (n : Nat) :
    ∀ (es : List (V × Nat)) (m m' : List (List Nat)),
      Shape n m → writeEdges vti src es m = some m' → Shape n m' := by
  intro es
  induction es with
  | nil =>
    intro m m' hm h
    simp only [writeEdges, Option.some.injEq] at h
    rw [← h]
    exact hm
  | cons q es ih =>
    obtain ⟨dest, w⟩ := q
    intro m m' hm h
    cases hsrc : dlookup vti src with
    | none =>
      rw [show writeEdges vti src ((dest, w) :: es) m = none by
        simp only [writeEdges, hsrc]] at h
      exact Option.noConfusion h
    | some i =>
      cases hdst : dlookup vti dest with
      | none =>
        rw [show writeEdges vti src ((dest, w) :: es) m = none by
          simp only [writeEdges, hsrc, hdst]] at h
        exact Option.noConfusion h
      | some j =>
        rw [show writeEdges vti src ((dest, w) :: es) m =
            writeEdges vti src es (set2 (set2 m i j w) j i w) by
          simp only [writeEdges, hsrc, hdst]] at h
        exact ih _ _ (shape_set2 (shape_set2 hm i j w) j i w) h

theorem writeEdges_symm [LinearOrder V] (vti : List (V × Nat)) (n : Nat)
    (hvti : ∀ v i, dlookup vti v = some i → i < n) (src : V) :
    ∀ (es : List (V × Nat)) (m m' : List (List Nat)),
      Shape n m → (∀ a b, get2 m a b = get2 m b a) →
      writeEdges vti src es m = some m' →
      ∀ a b, get2 m' a b = get2 m' b a := by
  intro es
  induction es with
  | nil =>
    intro m m' hm hsym h
    simp only [writeEdges, Option.some.injEq] at h
    rw [← h]
    exact hsym
  | cons q es ih =>
    obtain ⟨dest, w⟩ := q
    intro m m' hm hsym h
    cases hsrc : dlookup vti src with
    | none =>
      rw [show writeEdges vti src ((dest, w) :: es) m = none by
        simp only [writeEdges, hsrc]] at h
      exact Option.noConfusion h
    | some i =>
      cases hdst : dlookup vti dest with
      | none =>
        rw [show writeEdges vti src ((dest, w) :: es) m = none by
          simp only [writeEdges, hsrc, hdst]] at h
        exact Option.noConfusion h
      | some j =>
        rw [show writeEdges vti src ((dest, w) :: es) m =
            writeEdges vti src es (set2 (set2 m i j w) j i w) by
          simp only [writeEdges, hsrc, hdst]] at h
        exact ih _ _ (shape_set2 (shape_set2 hm i j w) j i w)
          (symm_write_pair hm hsym (hvti _ _ hsrc) (hvti _ _ hdst) w) h

theorem writeEdges_frame [LinearOrder V] (vti : List (V × Nat)) (n : Nat)
    (hvti : ∀ v i, dlookup vti v = some i → i < n) (src : V) (a b : Nat) :
    ∀ (es : List (V × Nat)) (m m' : List (List Nat)),
      Shape n m →
      writeEdges vti src es m = some m' →
      (∀ q ∈ es,
        ¬(dlookup vti src = some a ∧ dlookup vti q.1 = some b) ∧
        ¬(dlookup vti src = some b ∧ dlookup vti q.1 = some a)) →
      get2 m' a b = get2 m a b := by
  intro es
  induction es with
  | nil =>
    intro m m' hm h _
    simp only [writeEdges, Option.some.injEq] at h
    rw [← h]
  | cons q es ih =>
    obtain ⟨dest, w⟩ := q
    intro m m' hm h hits
    cases hsrc : dlookup vti src with
    | none =>
      rw [show writeEdges vti src ((dest, w) :: es) m = none by
        simp only [writeEdges, hsrc]] at h
      exact Option.noConfusion h
    | some i =>
      cases hdst : dlookup vti dest with
      | none =>
        rw [show writeEdges vti src ((dest, w) :: es) m = none by
          simp only [writeEdges, hsrc, hdst]] at h
        exact Option.noConfusion h
      | some j =>
        rw [show writeEdges vti src ((dest, w) :: es) m =
            writeEdges vti src es (set2 (set2 m i j w) j i w) by
          simp only [writeEdges, hsrc, hdst]] at h
        have hc := hits (dest, w) (List.mem_cons_self _ _)
        have hi := hvti _ _ hsrc
        have hj := hvti _ _ hdst
        have hm1 : Shape n (set2 m i j w) := shape_set2 hm i j w
        have h1 : ¬(a = i ∧ b = j) := by
          rintro ⟨rfl, rfl⟩
          exact hc.1 ⟨hsrc, hdst⟩
        have h2 : ¬(a = j ∧ b = i) := by
          rintro ⟨rfl, rfl⟩
          exact hc.2 ⟨hsrc, hdst⟩
        have hstep : get2 (set2 (set2 m i j w) j i w) a b = get2 m a b := by
          rw [get2_set2 hm1 hj hi, if_neg h2, get2_set2 hm hi hj, if_neg h1]
        rw [ih _ _ (shape_set2 hm1 j i w) h
          (fun r hr => hits r (List.mem_cons_of_mem _ hr)), hstep]

theorem camLoop_shape [LinearOrder V] (vti : List (V × Nat)) (n : Nat) :
    ∀ (srcs : List V) (al : List (V × List (V × Nat)))
      (m m' : List (List Nat)),
      Shape n m → (camLoop vti srcs al m).1 = some m' → Shape n m' := by
  intro srcs
  induction srcs with
  | nil =>
    intro al m m' hm h
    simp only [camLoop, Option.some.injEq] at h
    rw [← h]
    exact hm
  | cons src rest ih =>
    intro al m m' hm h
    cases hw : writeEdges vti src (lookupD (touch al src) src) m with
    | none =>
      rw [show (camLoop vti (src :: rest) al m).1 = none by
        simp only [camLoop, hw]] at h
      exact Option.noConfusion h
    | some m1 =>
      rw [show (camLoop vti (src :: rest) al m).1 =
          (camLoop vti rest (touch al src) m1).1 by
        simp only [camLoop, hw]] at h
      exact ih _ _ _ (writeEdges_shape vti src n _ _ _ hm hw) h

theorem camLoop_symm [LinearOrder V] (vti : List (V × Nat)) (n : Nat)
    (hvti : ∀ v i, dlookup vti v = some i → i < n) :
    ∀ (srcs : List V) (al : List (V × List (V × Nat)))
      (m m' : List (List Nat)),
      Shape n m → (∀ a b, get2 m a b = get2 m b a) →
      (camLoop vti srcs al m).1 = some m' →
      ∀ a b, get2 m' a b = get2 m' b a := by
  intro srcs
  induction srcs with
  | nil =>
    intro al m m' hm hsym h
    simp only [camLoop, Option.some.injEq] at h
    rw [← h]
    exact hsym
  | cons src rest ih =>
    intro al m m' hm hsym h
    cases hw : writeEdges vti src (lookupD (touch al src) src) m with
    | none =>
      rw [show (camLoop vti (src :: rest) al m).1 = none by
        simp only [camLoop, hw]] at h
      exact Option.noConfusion h
    | some m1 =>
      rw [show (camLoop vti (src :: rest) al m).1 =
          (camLoop vti rest (touch al src) m1).1 by
        simp only [camLoop, hw]] at h
      exact ih _ _ _ (writeEdges_shape vti src n _ _ _ hm hw)
        (writeEdges_symm vti n hvti src _ _ _ hm hsym hw) h

theorem camLoop_frame [LinearOrder V] (g : Graph V) (vti : List (V × Nat))
    (n a b : Nat) (hvti : ∀ v i, dlookup vti v = some i → i < n)
    (hcell : UntouchedCell g vti a b) :
    ∀ (srcs : List V) (al : List (V × List (V × Nat)))
      (m m' : List (List Nat)),
      (∀ x, lookupD al x = lookupD g.adjacency_list x) →
      Shape n m → (camLoop vti srcs al m).1 = some m' →
      get2 m' a b = get2 m a b := by
  intro srcs
  induction srcs with
  | nil =>
    intro al m m' _ hm h
    simp only [camLoop, Option.some.injEq] at h
    rw [← h]
  | cons src rest ih =>
    intro al m m' hal hm h
    cases hw : writeEdges vti src (lookupD (touch al src) src) m with
    | none =>
      rw [show (camLoop vti (src :: rest) al m).1 = none by
        simp only [camLoop, hw]] at h
      exact Option.noConfusion h
    | some m1 =>
      rw [show (camLoop vti (src :: rest) al m).1 =
          (camLoop vti rest (touch al src) m1).1 by
        simp only [camLoop, hw]] at h
      have hedges : lookupD (touch al src) src = lookupD g.adjacency_list src := by
        rw [lookupD_touch]
        exact hal src
      have hstep : get2 m1 a b = get2 m a b := by
        apply writeEdges_frame vti n hvti src a b _ _ _ hm hw
        intro q hq
        rw [hedges] at hq
        obtain ⟨l, hl, hql⟩ := mem_lookupD hq
        exact hcell (src, l) hl q hql
      rw [ih (touch al src) m1 m'
        (fun x => (lookupD_touch al src x).trans (hal x))
        (writeEdges_shape vti src n _ _ _ hm hw) h, hstep]

theorem length_insertOrd [LinearOrder V] (x : V) :
    ∀ l : List V, (insertOrd x l).length = l.length + 1 := by
  intro l
  induction l with
  | nil => rfl
  | cons y ys ih =>
    unfold insertOrd
    by_cases h : x ≤ y
    · rw [if_pos h]
      rfl
    · rw [if_neg h]
      simp only [List.length_cons, ih]

theorem length_sortedList [LinearOrder V] (l : List V) :
    (sortedList l).length = l.length := by
  induction l with
  | nil => rfl
  | cons x xs ih =>
    unfold sortedList at ih ⊢
    rw [List.foldr_cons, length_insertOrd, ih]
    rfl

/-- Every index produced by the `vertex_to_index` mapping is below the
vertex count. -/
theorem vti_lt [LinearOrder V] (g : Graph V) :
    ∀ (v : V) (i : Nat),
      dlookup ((sortedList g.vertices).enum.map fun p => (p.2, p.1)) v =
        some i → i < g.vertices.length := by
  intro v i h
  obtain ⟨p, hp, hpe⟩ := List.mem_map.mp (dlookup_mem h)
  have hp1 : p.1 = i := congrArg Prod.snd hpe
  have hmem := List.mk_mem_enum_iff_getElem?.mp
    (show (p.1, p.2) ∈ (sortedList g.vertices).enum from hp)
  obtain ⟨hlt, -⟩ := List.getElem?_eq_some.mp hmem
  rw [hp1, length_sortedList] at hlt
  exact hlt

/-! ### Initial-state lemmas for `dijkstra` -/

theorem init_mem_self {g : Graph V} {s : V} :
    (s, 0) ∈ dset (g.vertices.map fun v => (v, maxsize)) s 0 :=
  dlookup_mem (dlookup_dset_self _ _ _)

theorem init_mem_char {g : Graph V} {s : V} {p : V × Nat}
    (h : p ∈ dset (g.vertices.map fun v => (v, maxsize)) s 0) :
    p = (s, 0) ∨ p.2 = maxsize := by
  rcases mem_dset h with h | h
  · exact Or.inl h
  · obtain ⟨v, _, hv⟩ := List.mem_map.mp h
    right
    rw [← hv]

theorem init_lab {g : Graph V} {s : V} :
    ∀ p ∈ dset (g.vertices.map fun v => (v, maxsize)) s 0,
      p.2 ≤ maxsize ∧ (p.2 < maxsize → Reach g s p.1) := by
  intro p hp
  rcases init_mem_char hp with h | h
  · rw [h]
    exact ⟨Nat.zero_le _, fun _ => Relation.ReflTransGen.refl⟩
  · rw [h]
    exact ⟨le_refl _, fun hlt => absurd hlt (lt_irrefl _)⟩

theorem init_ver {g : Graph V} {s : V} :
    ∀ p ∈ dset (g.vertices.map fun v => (v, maxsize)) s 0,
      p.1 ∈ g.vertices ∨ p.1 = s := by
  intro p hp
  rcases mem_dset hp with h | h
  · rw [h]
    exact Or.inr rfl
  · obtain ⟨v, hvm, hv⟩ := List.mem_map.mp h
    rw [← hv]
    exact Or.inl hvm

theorem init_cov {g : Graph V} {s : V} :
    ∀ v ∈ g.vertices,
      v ∈ keys (dset (g.vertices.map fun v => (v, maxsize)) s 0) ∨
      v ∈ keys ([] : List (V × Nat)) := by
  intro v hv
  left
  apply keys_dset_sub
  rw [keys_map_const_pair]
  exact hv

/-- The result of `dijkstra`'s main loop on a well-formed graph, packaged:
the loop succeeds, visited distances are at most the sentinel and finite
only on reachable vertices, visited keys come from the vertex set plus the
start, and predecessor entries sit on stored, reachable vertices. -/
theorem dijkstra_post (g : Graph V) (s e : V) (hg : StoreInv g) :
    ∃ vis preds al,
      dijkstraLoop e (dset (g.vertices.map fun v => (v, maxsize)) s 0).length
        (dset (g.vertices.map fun v => (v, maxsize)) s 0) [] [] g.adjacency_list
        = some (vis, preds, al) ∧
      (∀ p ∈ vis, p.2 ≤ maxsize ∧ (p.2 < maxsize → Reach g s p.1)) ∧
      (∀ p ∈ vis, p.1 ∈ g.vertices ∨ p.1 = s) ∧
      (∀ p ∈ preds, p.1 ∈ g.vertices ∧ Reach g s p.1) := by
  obtain ⟨vis, preds, al, heq, _, h1, h2, h3⟩ :=
    dijkstraLoop_spec g s e (fun p hp => (hg p hp).2) _ _ [] [] g.adjacency_list
      (le_refl _) (fun x => rfl) init_cov init_lab init_ver (by simp) (by simp)
      (by simp)
  exact ⟨vis, preds, al, heq, h1, h2, h3⟩

/-! ### Claim theorems -/

/-- C3: on the graph with edges A→B (4), B→C (3), A→C (10), the shortest
path from A to C is the sequence A, B, C with cost 7. -/
theorem claim3_example_path :
    (shortest_path gABC "A" "C").map Prod.fst = some (["A", "B", "C"], 7) := by
  decide

/-- C1, counterexample: on the one-vertex graph `{A}`, `shortest_path A A`
does not return the path `[A]` with cost 0 — the path is empty. -/
theorem claim1_counterexample :
    (shortest_path gA "A" "A").map Prod.fst ≠ some (["A"], 0) ∧
    (shortest_path gA "A" "A").map Prod.fst = some ([], 0) := by
  constructor
  · decide
  · decide

/-- C2, counterexample: with both endpoints absent from the vertex set,
`shortest_path` raises nothing — it returns the ordinary "unreachable"
result. -/
theorem claim2_counterexample :
    "X" ∉ gA.vertices ∧ "Y" ∉ gA.vertices ∧
    (shortest_path gA "X" "Y").map Prod.fst = some ([], maxsize) := by
  refine ⟨by decide, by decide, by decide⟩

/-- C4, counterexample: `shortest_path` mutates the Graph Store's adjacency
mapping — on `{A}` with no adjacency entries, the run inserts an empty
entry for A (the `defaultdict` subscript of line 89). -/
theorem claim4_counterexample :
    gA.adjacency_list = [] ∧
    (shortest_path gA "A" "A").map (fun r => r.2.adjacency_list) =
      some [("A", [])] := by
  exact ⟨by decide, by decide⟩

/-- C4, amended: `shortest_path` never changes the vertex set, the vertex
count, or the outgoing edge list any vertex reads through the defaultdict;
the adjacency mapping's key set can only grow (by empty-list entries for
visited vertices). -/
theorem claim4_theorem (g : Graph V) (s e : V) (r : List V × Nat)
    (g' : Graph V) (h : shortest_path g s e = some (r, g')) :
    g'.vertices = g.vertices ∧ g'.num_vertices = g.num_vertices ∧
    (∀ x, lookupD g'.adjacency_list x = lookupD g.adjacency_list x) ∧
    keys g.adjacency_list ⊆ keys g'.adjacency_list := by
  set unv0 := dset (g.vertices.map fun v => (v, maxsize)) s 0 with hunv0
  have hdef : shortest_path g s e =
      match dijkstraLoop e unv0.length unv0 [] [] g.adjacency_list with
      | none => none
      | some (visited, predecessors, al) =>
        match walk predecessors (predecessors.length + 1) e [] with
        | none => none
        | some path =>
          some ((if path = [] then [] else s :: path,
                 (dlookup visited e).getD maxsize),
                { g with adjacency_list := al }) := by
    simp only [shortest_path, dijkstra, ← hunv0]
  rw [hdef] at h
  cases hl : dijkstraLoop e unv0.length unv0 [] [] g.adjacency_list with
  | none =>
    simp only [hl] at h
    exact Option.noConfusion h
  | some out =>
    obtain ⟨vis, preds, al⟩ := out
    simp only [hl] at h
    cases hw : walk preds (preds.length + 1) e [] with
    | none =>
      simp only [hw] at h
      exact Option.noConfusion h
    | some path =>
      simp only [hw, Option.some.injEq] at h
      have hg' : g' = { g with adjacency_list := al } := (congrArg Prod.snd h).symm
      obtain ⟨hal, hkeys⟩ := dijkstraLoop_al e _ _ _ _ _ _ hl
      subst hg'
      exact ⟨rfl, rfl, hal, hkeys⟩

/-- C7: removing a present vertex removes it from the vertex set, drops its
adjacency entry, and filters it out of every remaining outgoing list;
removing an absent vertex changes nothing. -/
theorem claim7_remove_vertex (g : Graph V) (v : V) :
    (v ∈ g.vertices →
      v ∉ (remove_vertex g v).vertices ∧
      dlookup (remove_vertex g v).adjacency_list v = none ∧
      ∀ p ∈ (remove_vertex g v).adjacency_list, ∀ q ∈ p.2, q.1 ≠ v) ∧
    (v ∉ g.vertices → remove_vertex g v = g) := by
  constructor
  · intro hv
    unfold remove_vertex
    rw [if_pos hv]
    refine ⟨?_, ?_, ?_⟩
    · intro hmem
      obtain ⟨-, hne⟩ := List.mem_filter.mp hmem
      simp at hne
    · apply dlookup_of_not_mem_keys
      rw [keys_map_snd]
      intro hk
      exact (mem_keys_dpop.mp hk).2 rfl
    · intro p hp q hq
      obtain ⟨r, _, hrp⟩ := List.mem_map.mp hp
      rw [← hrp] at hq
      obtain ⟨-, hne⟩ := List.mem_filter.mp hq
      simpa using hne
  · intro hv
    unfold remove_vertex
    rw [if_neg hv]

/-- C7, witness: removing B from the example graph works as stated, and
removing an absent vertex is the identity. -/
theorem claim7_witness :
    ("B" ∈ gABC.vertices ∧
      "B" ∉ (remove_vertex gABC "B").vertices ∧
      dlookup (remove_vertex gABC "B").adjacency_list "B" = none) ∧
    ("Z" ∉ gABC.vertices ∧ remove_vertex gABC "Z" = gABC) := by
  constructor
  · have h := (claim7_remove_vertex gABC "B").1 (by decide)
    exact ⟨by decide, h.1, h.2.1⟩
  · exact ⟨by decide, (claim7_remove_vertex gABC "Z").2 (by decide)⟩

/-- C8: the endpoint invariant holds for a fresh graph and is preserved by
`add_edge` (which also inserts both endpoints), `add_vertex` (which only
grows the vertex set), and `remove_vertex`. -/
theorem claim8_invariant :
    (∀ n : Nat, StoreInv (new_graph (V := V) n)) ∧
    (∀ (g : Graph V) (src dest : V) (w : Nat), StoreInv g →
      StoreInv (add_edge g src dest w) ∧
      src ∈ (add_edge g src dest w).vertices ∧
      dest ∈ (add_edge g src dest w).vertices) ∧
    (∀ (g : Graph V) (v : V), StoreInv g →
      StoreInv (add_vertex g v) ∧ g.vertices ⊆ (add_vertex g v).vertices) ∧
    (∀ (g : Graph V) (v : V), StoreInv g → StoreInv (remove_vertex g v)) := by
  refine ⟨StoreInv_new_graph, ?_, ?_, ?_⟩
  · intro g src dest w h
    refine ⟨StoreInv_add_edge h src dest w, ?_, ?_⟩
    · exact sadd_sub _ _ (mem_sadd_self _ _)
    · exact mem_sadd_self _ _
  · intro g v h
    exact ⟨StoreInv_add_vertex h v, add_vertex_sub g v⟩
  · intro g v h
    exact StoreInv_remove_vertex h v

/-- C8, witness: the invariant holds after building the example graph and
after removing one of its vertices. -/
theorem claim8_witness :
    StoreInv gABC ∧ StoreInv (remove_vertex gABC "B") := by
  exact ⟨by decide, (claim8_invariant.2.2.2) gABC "B" (by decide)⟩

/-- C4, witness: the frame theorem applied to the concrete run on `{A}`. -/
theorem claim4_witness :
    gAtouched.vertices = gA.vertices ∧
    ∀ x, lookupD gAtouched.adjacency_list x = lookupD gA.adjacency_list x := by
  have h := claim4_theorem gA "A" "A" ([], 0) gAtouched (by decide)
  exact ⟨h.1, h.2.2.1⟩

/-- C6: on a well-formed graph, when no directed path connects two stored
vertices, `shortest_path` returns the empty path with the sentinel cost. -/
theorem claim6_theorem (g : Graph V) (s e : V) (hg : StoreInv g)
    (hs : s ∈ g.vertices) (he : e ∈ g.vertices) (hur : ¬Reach g s e) :
    (shortest_path g s e).map Prod.fst = some ([], maxsize) := by
  obtain ⟨vis, preds, al, heq, hlab, hver, hpreds⟩ := dijkstra_post g s e hg
  have hpe : dlookup preds e = none := by
    cases hd : dlookup preds e with
    | none => rfl
    | some p => exact absurd (hpreds _ (dlookup_mem hd)).2 hur
  have hve : (dlookup vis e).getD maxsize = maxsize := by
    cases hd : dlookup vis e with
    | none => rfl
    | some dd =>
      obtain ⟨h1, h2⟩ := hlab _ (dlookup_mem hd)
      simp only [Option.getD_some]
      by_cases hlt : dd < maxsize
      · exact absurd (h2 hlt) hur
      · omega
  have hwalk : walk preds (preds.length + 1) e [] = some [] := by
    simp only [walk, hpe]
  have hfinal : shortest_path g s e =
      some (([], (dlookup vis e).getD maxsize),
        { g with adjacency_list := al }) := by
    simp [shortest_path, dijkstra, heq, hwalk]
  rw [hfinal, hve]
  rfl

/-- C6, witness: B cannot reach A in the single-edge graph A→B. -/
theorem notReach_gAB5 : ¬Reach gAB5 "B" "A" := by
  intro h
  rcases Relation.ReflTransGen.cases_head h with h | ⟨c, ⟨w, hw⟩, -⟩
  · exact absurd h (by decide)
  · have hB : lookupD gAB5.adjacency_list "B" = [] := by decide
    rw [hB] at hw
    exact absurd hw (List.not_mem_nil _)

theorem claim6_witness :
    StoreInv gAB5 ∧ "B" ∈ gAB5.vertices ∧ "A" ∈ gAB5.vertices ∧
    (shortest_path gAB5 "B" "A").map Prod.fst = some ([], maxsize) :=
  ⟨by decide, by decide, by decide,
    claim6_theorem gAB5 "B" "A" (by decide) (by decide) (by decide)
      notReach_gAB5⟩

/-- C2, amended: no error is raised for an absent vertex; on a well-formed
graph an absent `end` (with `start ≠ end`) produces the ordinary
"unreachable" result, the empty path with sentinel cost. -/
theorem claim2_theorem (g : Graph V) (s e : V) (hg : StoreInv g)
    (he : e ∉ g.vertices) (hne : s ≠ e) :
    (shortest_path g s e).map Prod.fst = some ([], maxsize) := by
  obtain ⟨vis, preds, al, heq, hlab, hver, hpreds⟩ := dijkstra_post g s e hg
  have hpe : dlookup preds e = none := by
    cases hd : dlookup preds e with
    | none => rfl
    | some p => exact absurd (hpreds _ (dlookup_mem hd)).1 he
  have hve : dlookup vis e = none := by
    cases hd : dlookup vis e with
    | none => rfl
    | some dd =>
      rcases hver _ (dlookup_mem hd) with h | h
      · exact absurd h he
      · exact absurd h.symm hne
  have hwalk : walk preds (preds.length + 1) e [] = some [] := by
    simp only [walk, hpe]
  have hfinal : shortest_path g s e =
      some (([], (dlookup vis e).getD maxsize),
        { g with adjacency_list := al }) := by
    simp [shortest_path, dijkstra, heq, hwalk]
  rw [hfinal, hve]
  rfl

/-- C2, witness: the amended behavior on a concrete absent end vertex. -/
theorem claim2_witness :
    StoreInv gA ∧ "Q" ∉ gA.vertices ∧
    (shortest_path gA "A" "Q").map Prod.fst = some ([], maxsize) :=
  ⟨by decide, by decide,
    claim2_theorem gA "A" "Q" (by decide) (by decide) (by decide)⟩

/-- C1, amended: for a stored vertex `v` on a well-formed graph,
`shortest_path(G, v, v)` returns the empty path (not `[v]`) with cost 0:
the start vertex is selected first, is never given a predecessor, and the
reconstruction therefore stays empty. -/
theorem claim1_theorem (g : Graph V) (s : V) (hg : StoreInv g)
    (hs : s ∈ g.vertices) :
    (shortest_path g s s).map Prod.fst = some ([], 0) := by
  set unv0 := dset (g.vertices.map fun v => (v, maxsize)) s 0 with hunv0
  have hmem : (s, 0) ∈ unv0 := init_mem_self
  cases hu : unv0 with
  | nil =>
    rw [hu] at hmem
    exact absurd hmem (List.not_mem_nil _)
  | cons u rest =>
    obtain ⟨hmp, hmple⟩ := minPair_spec u rest
    have hmem' : (s, 0) ∈ u :: rest := hu ▸ hmem
    have hle0 : (minPair u rest).2 ≤ 0 := hmple _ hmem'
    have hv2 : (minPair u rest).2 = 0 := Nat.le_zero.mp hle0
    have hmpu : minPair u rest ∈ unv0 := by
      rw [hu]
      exact hmp
    have hmps : minPair u rest = (s, 0) := by
      rcases init_mem_char (hunv0 ▸ hmpu) with h | h
      · exact h
      · rw [hv2] at h
        exact absurd h (by decide)
    have hcur : (minPair u rest).1 = s := by
      rw [hmps]
    obtain ⟨unv', preds', heq, hk, hl', hv', hp', hz⟩ :=
      relaxAll_spec g s (minPair u rest).1 (minPair u rest).2
        (by
          rw [hmps]
          exact fun _ => Relation.ReflTransGen.refl)
        (lookupD (touch g.adjacency_list (minPair u rest).1) (minPair u rest).1)
        (u :: rest) [] []
        (by
          rw [lookupD_touch]
          exact fun q hq => hq)
        (by
          rw [lookupD_touch]
          intro q hq
          obtain ⟨l, hlm, hql⟩ := mem_lookupD hq
          exact (hg _ hlm).2 q hql)
        (by
          rw [lookupD_touch]
          intro q hq
          obtain ⟨l, hlm, hql⟩ := mem_lookupD hq
          left
          rw [← hu, hunv0]
          apply keys_dset_sub
          rw [keys_map_const_pair]
          exact (hg _ hlm).2 q hql)
        (by
          rw [← hu, hunv0]
          exact init_lab)
        (by
          rw [← hu, hunv0]
          exact init_ver)
        (by simp)
    have hloop : dijkstraLoop s unv0.length unv0 [] [] g.adjacency_list =
        some (dset [] (minPair u rest).1 (minPair u rest).2, preds',
          touch g.adjacency_list (minPair u rest).1) := by
      rw [hu, show (u :: rest).length = rest.length + 1 from rfl]
      simp only [dijkstraLoop, heq]
      rw [if_pos hcur]
    have hzs := hz s (by
      rw [← hu, hunv0]
      exact dlookup_dset_self _ _ _)
    have hpe : dlookup preds' s = none := hzs.2
    have hwalk : walk preds' (preds'.length + 1) s [] = some [] := by
      simp only [walk, hpe]
    have hvis : dlookup (dset ([] : List (V × Nat)) (minPair u rest).1
        (minPair u rest).2) s = some 0 := by
      rw [hmps]
      exact dlookup_dset_self _ _ _
    have hfinal : shortest_path g s s =
        some (([], (dlookup (dset ([] : List (V × Nat)) (minPair u rest).1
          (minPair u rest).2) s).getD maxsize),
          { g with adjacency_list := touch g.adjacency_list (minPair u rest).1 }) := by
      simp [shortest_path, dijkstra, ← hunv0, hloop, hwalk]
    rw [hfinal, hvis]
    rfl

/-- C1, witness: the amended behavior on the concrete one-vertex graph. -/
theorem claim1_witness :
    StoreInv gA ∧ "A" ∈ gA.vertices ∧
    (shortest_path gA "A" "A").map Prod.fst = some ([], 0) :=
  ⟨by decide, by decide, claim1_theorem gA "A" (by decide) (by decide)⟩

/-- C9: `create_adjacency_matrix` is a pure function of the graph — it does
not mutate the graph state, so calling it twice without mutation in between
returns the identical matrix and index mapping. -/
theorem claim9_theorem [LinearOrder V] (g : Graph V) :
    (create_adjacency_matrix g).2 = g ∧
    (create_adjacency_matrix ((create_adjacency_matrix g).2)).1 =
      (create_adjacency_matrix g).1 := by
  have h2 : (create_adjacency_matrix g).2 = g := by
    unfold create_adjacency_matrix
    cases hc : camLoop ((sortedList g.vertices).enum.map fun p => (p.2, p.1))
        (keys g.adjacency_list) g.adjacency_list
        (List.replicate g.vertices.length
          (List.replicate g.vertices.length maxsize)) with
    | mk o al =>
      have hid : al = g.adjacency_list := by
        have h := camLoop_al_id ((sortedList g.vertices).enum.map fun p => (p.2, p.1))
          (keys g.adjacency_list) g.adjacency_list
          (List.replicate g.vertices.length
            (List.replicate g.vertices.length maxsize))
          (fun x hx => hx)
        rw [hc] at h
        exact h
      subst hid
      cases o <;> simp only [hc]
  exact ⟨h2, by rw [h2]⟩

/-- C10: the search terminates within the unvisited-map size — the loop's
result does not depend on fuel beyond `unvisited.length`; the initial
unvisited map has at most |vertex set| + 1 entries; relaxation never adds
or removes unvisited keys; and with duplicate-free keys each iteration's
pop removes exactly one entry. -/
theorem claim10_theorem :
    (∀ (e : V) (fuel : Nat) (unv vis : List (V × Nat)) (preds : List (V × V))
        (al : List (V × List (V × Nat))), unv.length ≤ fuel →
        dijkstraLoop e fuel unv vis preds al =
          dijkstraLoop e unv.length unv vis preds al) ∧
    (∀ (g : Graph V) (s : V),
        (dset (g.vertices.map fun v => (v, maxsize)) s 0).length ≤
          g.vertices.length + 1) ∧
    (∀ (cur : V) (d : Nat) (vis edges unv : List (V × Nat))
        (preds : List (V × V)) (out : List (V × Nat) × List (V × V)),
        relaxAll cur d vis edges (unv, preds) = some out →
        keys out.1 = keys unv) ∧
    (∀ (unv : List (V × Nat)) (cur : V), (keys unv).Nodup → cur ∈ keys unv →
        (dpop unv cur).length + 1 = unv.length) := by
  refine ⟨?_, ?_, ?_, ?_⟩
  · intro e fuel unv vis preds al h
    exact dijkstraLoop_fuel e unv.length fuel unv vis preds al (le_refl _) h
  · intro g s
    unfold dset
    by_cases hs : (dlookup (g.vertices.map fun v => (v, maxsize)) s).isSome
    · rw [if_pos hs]
      simp only [List.length_map]
      omega
    · rw [if_neg hs]
      simp only [List.length_append, List.length_map, List.length_singleton]
      omega
  · intro cur d vis edges unv preds out h
    exact relaxAll_keys cur d vis edges unv preds out h
  · intro unv cur hn hc
    exact length_dpop_of_nodup hn hc

/-- C5: the adjacency matrix is always square of dimension the vertex count,
symmetric (each directed edge is written into both mirror cells), with the
sentinel in every cell no edge touches; on `{A, B}` with the single edge
A→B (5) the result is `[[INF, 5], [5, INF]]` with indices A↦0, B↦1. -/
theorem claim5_theorem :
    (∀ (W : Type) [DecidableEq W] [LinearOrder W] (g : Graph W)
        (m : List (List Nat)) (vti : List (W × Nat)),
      (create_adjacency_matrix g).1 = some (m, vti) →
      m.length = g.vertices.length ∧
      (∀ row ∈ m, row.length = g.vertices.length) ∧
      (∀ a b, get2 m a b = get2 m b a) ∧
      (∀ a b, a < g.vertices.length → b < g.vertices.length →
        UntouchedCell g vti a b → get2 m a b = some maxsize)) ∧
    (create_adjacency_matrix gABchar).1 =
      some ([[maxsize, 5], [5, maxsize]], [('A', 0), ('B', 1)]) := by
  constructor
  · intro W _ _ g m vti h
    cases hc : camLoop ((sortedList g.vertices).enum.map fun p => (p.2, p.1))
        (keys g.adjacency_list) g.adjacency_list
        (List.replicate g.vertices.length
          (List.replicate g.vertices.length maxsize)) with
    | mk o al =>
      cases o with
      | none =>
        have hnone : (create_adjacency_matrix g).1 = none := by
          unfold create_adjacency_matrix
          simp only [hc]
        rw [hnone] at h
        exact Option.noConfusion h
      | some mm =>
        have hcam : (create_adjacency_matrix g).1 =
            some (mm, (sortedList g.vertices).enum.map fun p => (p.2, p.1)) := by
          unfold create_adjacency_matrix
          simp only [hc]
        rw [hcam, Option.some.injEq] at h
        have hmmeq : m = mm := (congrArg Prod.fst h).symm
        have hvtieq : vti =
            (sortedList g.vertices).enum.map fun p => (p.2, p.1) :=
          (congrArg Prod.snd h).symm
        subst hmmeq
        subst hvtieq
        have hfst : (camLoop ((sortedList g.vertices).enum.map
            fun p => (p.2, p.1)) (keys g.adjacency_list) g.adjacency_list
            (List.replicate g.vertices.length
              (List.replicate g.vertices.length maxsize))).1 = some m :=
          congrArg Prod.fst hc
        have hshape0 := shape_replicate g.vertices.length maxsize
        have hsym0 : ∀ a b,
            get2 (List.replicate g.vertices.length
              (List.replicate g.vertices.length maxsize)) a b =
            get2 (List.replicate g.vertices.length
              (List.replicate g.vertices.length maxsize)) b a := by
          intro a b
          rw [get2_replicate, get2_replicate]
          by_cases ha : a < g.vertices.length <;>
            by_cases hb : b < g.vertices.length <;> simp [ha, hb]
        obtain ⟨hlen, hrows⟩ :=
          camLoop_shape _ g.vertices.length _ _ _ _ hshape0 hfst
        refine ⟨hlen, hrows, ?_, ?_⟩
        · exact camLoop_symm _ g.vertices.length (vti_lt g) _ _ _ _
            hshape0 hsym0 hfst
        · intro a b ha hb hcell
          have hframe := camLoop_frame g _ g.vertices.length a b (vti_lt g)
            hcell _ _ _ _ (fun x => rfl) hshape0 hfst
          rw [hframe, get2_replicate, if_pos ⟨ha, hb⟩]
  · decide

/-- C5, witness: the general part applied to the concrete `{A, B}` graph. -/
theorem claim5_witness :
    (create_adjacency_matrix gABchar).1 =
        some ([[maxsize, 5], [5, maxsize]], [('A', 0), ('B', 1)]) ∧
    ([[maxsize, 5], [5, maxsize]] : List (List Nat)).length =
        gABchar.vertices.length ∧
    (∀ a b, get2 [[maxsize, 5], [5, maxsize]] a b =
        get2 [[maxsize, 5], [5, maxsize]] b a) := by
  have h := claim5_theorem.1 Char gABchar [[maxsize, 5], [5, maxsize]]
    [('A', 0), ('B', 1)] claim5_theorem.2
  exact ⟨claim5_theorem.2, h.1, h.2.2.1⟩

/-- C10, witness: fuel insensitivity and exact-pop on concrete inputs. -/
theorem claim10_witness :
    dijkstraLoop "B" 7 [("A", 0), ("B", 5)] [] []
        ([] : List (String × List (String × Nat))) =
      dijkstraLoop "B" 2 [("A", 0), ("B", 5)] [] [] [] ∧
    (dpop [("A", 0), ("B", 5)] "A").length + 1 =
      ([("A", 0), ("B", 5)] : List (String × Nat)).length := by
  constructor
  · have h := (claim10_theorem (V := String)).1 "B" 7 [("A", 0), ("B", 5)]
      [] [] [] (by decide)
    simpa using h
  · exact (claim10_theorem (V := String)).2.2.2 [("A", 0), ("B", 5)] "A"
      (by decide) (by decide)

end Cw
